import Mathlib

/-!
Verification of the `htmls-to-datasette` CLI (`htmls_to_datasette/cli.py`)
against its natural-language specification.

The Python source is shallowly embedded below:

* Python `str` values that carry file *content* are modelled by their UTF-8
  byte sequences (`List Nat`, each element < 256); file names, paths and dates
  are modelled by Lean `String` / component lists.
* A filesystem path is modelled as its list of components (`FsPath := List
  String`); the flat string `str(file)` that the code stores is recovered by
  `pathStr` (components joined with "/").  The code only ever compares paths
  for equality, takes `path.name` (last component) and `path.parent`
  (everything but the last component), all of which are faithfully mirrored on
  component lists.
* The SQLite database behind `sqlite_utils` is modelled as the list of rows of
  the `files` table in rowid (insertion) order; `insert(values, pk="id")` is
  modelled by `dbInsert`, which refuses a duplicate primary key exactly as the
  SQL `INSERT` does.
* The filesystem state seen by `purge` and `extract` is modelled as the list
  of existing paths (files and directories alike).
* External collaborators that the spec puts out of scope are modelled as
  stand-ins whose exact output no claim depends on: `html2text` (the
  HTML-to-plaintext converter) and the FTS tokenizer/stemmer.  `hashlib.md5`
  is embedded as a full executable MD5 over `Nat` arithmetic.
* Recursive directory traversal is implemented with an explicit fuel
  parameter so that every definition is structurally recursive and hence
  kernel-computable.  The Python recursion always terminates, so every real
  run corresponds to a run with ample fuel; theorems either quantify over the
  fuel and condition on a successful (`.ok`) run, or supply a concrete ample
  fuel.
-/

/-! ## Bytes and strings -/

/-- UTF-8 encoding of one character (the byte sequence Python produces for it
inside `path.encode("UTF-8")` or a text-mode `write`). -/
def utf8Bytes (c : Char) : List Nat :=
  let n := c.toNat
  if n < 0x80 then [n]
  else if n < 0x800 then [0xC0 + n / 64, 0x80 + n % 64]
  else if n < 0x10000 then [0xE0 + n / 4096, 0x80 + (n / 64) % 64, 0x80 + n % 64]
  else [0xF0 + n / 262144, 0x80 + (n / 4096) % 64, 0x80 + (n / 64) % 64, 0x80 + n % 64]

/-- UTF-8 bytes of a string. -/
def strBytes (s : String) : List Nat :=
  s.data.foldr (fun c acc => utf8Bytes c ++ acc) []

/-- Python's universal-newline translation performed by reading a file in text
mode (`open(file, "r")` then `.read()`): each `\r\n` pair and each lone `\r`
becomes `\n`.  We keep the result as a byte sequence; decoding/encoding is the
identity on it because the model identifies a Python `str` with its UTF-8
bytes (inputs are assumed to decode cleanly, as the code would otherwise raise
`UnicodeDecodeError`). -/
def textRead : List Nat → List Nat
  | [] => []
  | 13 :: 10 :: rest => 10 :: textRead rest
  | 13 :: rest => 10 :: textRead rest
  | b :: rest => b :: textRead rest

/-! ## Paths -/

/-- A filesystem path, as its list of components. -/
abbrev FsPath := List String

/-- Join strings with a separator (`sep.join(parts)`). -/
def joinWith (sep : String) : List String → String
  | [] => ""
  | [s] => s
  | s :: rest => s ++ sep ++ joinWith sep rest

/-- Flat rendering of a path, as `str(file)` produces it. -/
def pathStr (p : FsPath) : String :=
  joinWith "/" p

/-- Python `pathlib`'s `suffix` property of a file name: the part of the name
from its last dot, provided that dot is neither the first nor the last
character of the name; otherwise the empty string. -/
def pySuffix (name : String) : String :=
  let rev := name.data.reverse
  match rev.findIdx? (fun c => c = '.') with
  | none => ""
  | some k =>
      if k = 0 ∨ k + 1 = name.data.length then ""
      else String.mk ((rev.take (k + 1)).reverse)

/-! ## MD5 (the Identity Scheme, `hashlib.md5(path.encode("UTF-8")).hexdigest()`) -/

/-- Constant table of the MD5 compression function. -/
def md5K : List Nat :=
  [0xd76aa478, 0xe8c7b756, 0x242070db, 0xc1bdceee,
   0xf57c0faf, 0x4787c62a, 0xa8304613, 0xfd469501,
   0x698098d8, 0x8b44f7af, 0xffff5bb1, 0x895cd7be,
   0x6b901122, 0xfd987193, 0xa679438e, 0x49b40821,
   0xf61e2562, 0xc040b340, 0x265e5a51, 0xe9b6c7aa,
   0xd62f105d, 0x02441453, 0xd8a1e681, 0xe7d3fbc8,
   0x21e1cde6, 0xc33707d6, 0xf4d50d87, 0x455a14ed,
   0xa9e3e905, 0xfcefa3f8, 0x676f02d9, 0x8d2a4c8a,
   0xfffa3942, 0x8771f681, 0x6d9d6122, 0xfde5380c,
   0xa4beea44, 0x4bdecfa9, 0xf6bb4b60, 0xbebfbc70,
   0x289b7ec6, 0xeaa127fa, 0xd4ef3085, 0x04881d05,
   0xd9d4d039, 0xe6db99e5, 0x1fa27cf8, 0xc4ac5665,
   0xf4292244, 0x432aff97, 0xab9423a7, 0xfc93a039,
   0x655b59c3, 0x8f0ccc92, 0xffeff47d, 0x85845dd1,
   0x6fa87e4f, 0xfe2ce6e0, 0xa3014314, 0x4e0811a1,
   0xf7537e82, 0xbd3af235, 0x2ad7d2bb, 0xeb86d391]

/-- Per-round left-rotation amounts of MD5. -/
def md5S : List Nat :=
  [7, 12, 17, 22, 7, 12, 17, 22, 7, 12, 17, 22, 7, 12, 17, 22,
   5, 9, 14, 20, 5, 9, 14, 20, 5, 9, 14, 20, 5, 9, 14, 20,
   4, 11, 16, 23, 4, 11, 16, 23, 4, 11, 16, 23, 4, 11, 16, 23,
   6, 10, 15, 21, 6, 10, 15, 21, 6, 10, 15, 21, 6, 10, 15, 21]

/-- Left rotation of a 32-bit word represented as a `Nat` below `2^32`. -/
def rotl32 (x n : Nat) : Nat :=
  ((x <<< n) % 4294967296) + (x >>> (32 - n))

/-- Little-endian 8-byte rendering of a 64-bit length. -/
def toLE64 (n : Nat) : List Nat :=
  (List.range 8).map (fun i => (n >>> (8 * i)) % 256)

/-- MD5 padding: a `0x80` byte, zeros to 56 mod 64, then the bit length. -/
def md5pad (msg : List Nat) : List Nat :=
  let len := msg.length
  let padLen := (120 - (len + 1) % 64) % 64
  msg ++ [0x80] ++ List.replicate padLen 0 ++ toLE64 ((len * 8) % 18446744073709551616)

/-- Little-endian 32-bit word `j` of a 64-byte chunk. -/
def leWord (bytes : List Nat) (j : Nat) : Nat :=
  bytes.getD (4 * j) 0 + 256 * bytes.getD (4 * j + 1) 0 +
    65536 * bytes.getD (4 * j + 2) 0 + 16777216 * bytes.getD (4 * j + 3) 0

/-- One round of the MD5 compression function. -/
def md5Mix (chunk : List Nat) (st : Nat × Nat × Nat × Nat) (i : Nat) :
    Nat × Nat × Nat × Nat :=
  let a := st.1
  let b := st.2.1
  let c := st.2.2.1
  let d := st.2.2.2
  let fg : Nat × Nat :=
    if i < 16 then ((b &&& c) ||| ((b ^^^ 4294967295) &&& d), i)
    else if i < 32 then ((d &&& b) ||| ((d ^^^ 4294967295) &&& c), (5 * i + 1) % 16)
    else if i < 48 then (b ^^^ c ^^^ d, (3 * i + 5) % 16)
    else (c ^^^ (b ||| (d ^^^ 4294967295)), (7 * i) % 16)
  let f := (fg.1 + a + md5K.getD i 0 + leWord chunk fg.2) % 4294967296
  (d, (b + rotl32 f (md5S.getD i 0)) % 4294967296, b, c)

/-- Process one 64-byte chunk. -/
def md5Chunk (st : Nat × Nat × Nat × Nat) (chunk : List Nat) :
    Nat × Nat × Nat × Nat :=
  let r := (List.range 64).foldl (md5Mix chunk) st
  ((st.1 + r.1) % 4294967296, (st.2.1 + r.2.1) % 4294967296,
   (st.2.2.1 + r.2.2.1) % 4294967296, (st.2.2.2 + r.2.2.2) % 4294967296)

/-- Split a byte list into 64-byte chunks.  The first argument is fuel (an
upper bound on the number of chunks) keeping the recursion structural. -/
def chunksAux : Nat → List Nat → List (List Nat)
  | _, [] => []
  | 0, _ => []
  | fuel + 1, l => l.take 64 :: chunksAux fuel (l.drop 64)

/-- Split a byte list into 64-byte chunks. -/
def chunks64 (l : List Nat) : List (List Nat) :=
  chunksAux l.length l

/-- Lower-case hexadecimal digit. -/
def hexDigit (n : Nat) : Char :=
  if n < 10 then Char.ofNat (48 + n) else Char.ofNat (87 + n)

/-- Two-digit lower-case hexadecimal rendering of a byte. -/
def byteHex (b : Nat) : String :=
  String.mk [hexDigit (b / 16), hexDigit (b % 16)]

/-- Little-endian hexadecimal rendering of a 32-bit word. -/
def wordLEHex (w : Nat) : String :=
  byteHex (w % 256) ++ byteHex ((w >>> 8) % 256) ++ byteHex ((w >>> 16) % 256) ++
    byteHex ((w >>> 24) % 256)

/-- `hashlib.md5(s.encode("UTF-8")).hexdigest()`: the Identity Scheme used for
the `id` column.  (Checked against the standard test vectors for `""`, `"a"`
and `"abc"`.) -/
def md5_hexdigest (s : String) : String :=
  let st := (chunks64 (md5pad (strBytes s))).foldl md5Chunk
    (0x67452301, 0xefcdab89, 0x98badcfe, 0x10325476)
  wordLEHex st.1 ++ wordLEHex st.2.1 ++ wordLEHex st.2.2.1 ++ wordLEHex st.2.2.2

/-! ## External collaborators -/

/-- Stand-in for the external `html2text.html2text` converter (excluded from
scope by the spec).  No claim depends on its output, only on the fact that it
is a pure function of the file's text. -/
def html2text (s : List Nat) : List Nat := s

/-! ## Data model -/

/-- One row of the `files` table.  Column `plaintext-content` is rendered as
the field `plaintext_content`; `content` is `none` where the column is SQL
`NULL` (in particular for rows indexed without `--store-binary`, since
`initialize_db` creates the column for every row). -/
structure FileRecord where
  id : String
  name : String
  size : Nat
  path : FsPath
  added : String
  plaintext_content : List Nat
  content : Option (List Nat)
deriving Repr, DecidableEq

/-- The `IndexStats` dataclass of the CLI. -/
structure IndexStats where
  already_indexed : Nat := 0
  indexed : Nat := 0
deriving Repr, DecidableEq

/-- Does some row of the table have this `path`?  This is the crawler's
pre-insert existence check
`select id from files where path = :path` (a row dictionary is truthy
whenever the query returns one). -/
def pathIn (db : List FileRecord) (p : FsPath) : Bool :=
  db.any (fun r => r.path = p)

/-- `db[FILES_TABLE].insert(values, pk="id")`: the SQL `INSERT` of the
embedded store (an external collaborator).  A duplicate primary key makes the
statement fail with an integrity error, leaving the table unchanged; it never
silently replaces the existing row.  Otherwise the row is appended in rowid
order. -/
def dbInsert (db : List FileRecord) (r : FileRecord) : Except String (List FileRecord) :=
  if db.any (fun x => x.id = r.id) then .error "UNIQUE constraint failed: files.id"
  else .ok (db ++ [r])

/-- `ACCEPTABLE_HTML_EXTENSIONS` from the CLI. -/
def ACCEPTABLE_HTML_EXTENSIONS : List String := [".html", ".htm"]

/-! ## Filesystem trees and the crawler -/

/-- A directory entry: a regular file with its raw bytes, or a subdirectory
with its own listing.  (`iterdir` order is the listing order.) -/
inductive Entry where
  | file (name : String) (bytes : List Nat) : Entry
  | dir (name : String) (entries : List Entry) : Entry

/-- Python `str.lower()` restricted to the ASCII range, which is all the
extension filter compares (character-by-character lowercase mapping). -/
def pyLower (s : String) : String :=
  String.mk (s.data.map Char.toLower)

/-- Does a file name pass the crawler's filter
`file.suffix.lower() in ACCEPTABLE_HTML_EXTENSIONS`? -/
def qualifies (name : String) : Bool :=
  pyLower (pySuffix name) ∈ ACCEPTABLE_HTML_EXTENSIONS

/-- The body of the `for file in files_to_process` loop of `index_dir`,
iterated over a directory listing: files failing the extension filter are
never in `files_to_process`; for each qualifying file the path-existence
check either bumps `already_indexed` or a fresh `FileRecord` is built (text
read, `html2text`, MD5 of the flat path, `content` only when `store_binary`)
and inserted, bumping `indexed`.  `today` abstracts
`datetime.now().strftime("%d-%m-%Y")`. -/
def processFiles (today : String) (storeBinary : Bool) (dirPath : FsPath) :
    List Entry → List FileRecord → IndexStats →
    Except String (List FileRecord × IndexStats)
  | [], db, stats => .ok (db, stats)
  | .dir _ _ :: rest, db, stats => processFiles today storeBinary dirPath rest db stats
  | .file name bytes :: rest, db, stats =>
      if qualifies name then
        let path := dirPath ++ [name]
        if pathIn db path then
          processFiles today storeBinary dirPath rest db
            { stats with already_indexed := stats.already_indexed + 1 }
        else
          let content := textRead bytes
          let r : FileRecord :=
            { id := md5_hexdigest (pathStr path)
              name := name
              size := bytes.length
              path := path
              added := today
              plaintext_content := html2text content
              content := if storeBinary then some content else none }
          match dbInsert db r with
          | .error e => .error e
          | .ok db1 =>
              processFiles today storeBinary dirPath rest db1
                { stats with indexed := stats.indexed + 1 }
      else processFiles today storeBinary dirPath rest db stats

/-- The pending recursion jobs produced by one directory:
`[file for file in directory.iterdir() if file.is_dir()]`, each paired with
its path. -/
def subJobs (dirPath : FsPath) : List Entry → List (FsPath × List Entry)
  | [] => []
  | .file _ _ :: rest => subJobs dirPath rest
  | .dir name sub :: rest => (dirPath ++ [name], sub) :: subJobs dirPath rest

/-- Depth-first worklist form of the recursive `index_dir`: process the files
of the front directory, then (when `recursive`) push its subdirectories in
front of the remaining work, exactly the call order of the Python recursion.
The `fuel` argument only keeps the recursion structural (the Python recursion
always terminates); a run that does not exhaust its fuel is independent of
it. -/
def index_jobs (today : String) (storeBinary recursive : Bool) :
    Nat → List (FsPath × List Entry) → List FileRecord → IndexStats →
    Except String (List FileRecord × IndexStats)
  | _, [], db, stats => .ok (db, stats)
  | 0, _ :: _, _, _ => .error "out of fuel"
  | fuel + 1, (dirPath, entries) :: jobs, db, stats =>
      match processFiles today storeBinary dirPath entries db stats with
      | .error e => .error e
      | .ok (db1, stats1) =>
          index_jobs today storeBinary recursive fuel
            ((if recursive then subJobs dirPath entries else []) ++ jobs) db1 stats1

/-- `index_dir(directory, db, store_binary, recursive, stats)` from the CLI,
as a function of the directory's path and listing, the abstracted current
date, and the database/stats state (plus the fuel artifact). -/
def index_dir (fuel : Nat) (today : String) (storeBinary recursive : Bool)
    (dirPath : FsPath) (entries : List Entry) (db : List FileRecord)
    (stats : IndexStats) : Except String (List FileRecord × IndexStats) :=
  index_jobs today storeBinary recursive fuel [(dirPath, entries)] db stats

/-! ## Well-formed directory trees

A real on-disk directory never lists two children with the same name.  The
mutual predicates below say exactly that, at every level of a tree. -/

/-- The name of a directory entry. -/
def entryName : Entry → String
  | .file n _ => n
  | .dir n _ => n

mutual

/-- Every listing inside this entry has pairwise-distinct child names. -/
inductive WFEntry : Entry → Prop
  | file (n : String) (b : List Nat) : WFEntry (.file n b)
  | dir (n : String) (sub : List Entry) (hsub : WFList sub) : WFEntry (.dir n sub)

/-- The listing has pairwise-distinct child names, and so does every listing
below it. -/
inductive WFList : List Entry → Prop
  | mk (entries : List Entry) (hnames : (entries.map entryName).Nodup)
      (hall : ∀ e ∈ entries, WFEntry e) : WFList entries

end

/-! ## Reconciler — Purge -/

/-- The loop body of `purge`: iterate over the rows returned by
`select id, path from files where content is null`; for each whose path no
longer exists on the filesystem (`fs` is the list of existing paths), count
it and — unless `--dry-run` — delete it from the table by `id`. -/
def purgeRows (fs : List FsPath) (dryRun : Bool) :
    List FileRecord → List FileRecord → Nat → List FileRecord × Nat
  | [], db, count => (db, count)
  | r :: rest, db, count =>
      if fs.contains r.path then purgeRows fs dryRun rest db count
      else
        purgeRows fs dryRun rest
          (if dryRun then db else db.filter (fun x => x.id ≠ r.id)) (count + 1)

/-- The `purge` command: returns the table state after the command and the
reported count of files that were not accessible. -/
def purge (fs : List FsPath) (dryRun : Bool) (db : List FileRecord) :
    List FileRecord × Nat :=
  purgeRows fs dryRun (db.filter (fun r => r.content.isNone)) db 0

/-! ## Reconciler — Extract -/

/-- Observable outcome of the `extract` command: the table state after the
command, the list of file writes performed (destination path and bytes
written, in order), the count of files reported as already found on their
destinations, and the reported set of missing parent directories (empty
unless the operation aborted). -/
structure ExtractResult where
  db : List FileRecord
  writes : List (FsPath × List Nat)
  already_present : Nat
  missing_parents : List FsPath
deriving Repr, DecidableEq

/-- Does the destination of a row already exist?  This is
`(not output_path and path.exists()) or
(output_path and output_path.joinpath(path.name).exists())`. -/
def destExists (fs : List FsPath) (output : Option FsPath) (p : FsPath) : Bool :=
  match output with
  | none => fs.contains p
  | some out => fs.contains (out ++ [p.getLastD ""])

/-- The destination path a row is written to: its original `path`, or
`output_path.joinpath(path.name)` when `--output` was given. -/
def destPath (output : Option FsPath) (p : FsPath) : FsPath :=
  match output with
  | none => p
  | some out => out ++ [p.getLastD ""]

/-- Classification of a row as orphaned:
`not output_path and not path.parent.exists()` (reached only when the
destination does not already exist). -/
def isOrphan (fs : List FsPath) (output : Option FsPath) (r : FileRecord) : Bool :=
  !destExists fs output r.path && output.isNone && !fs.contains r.path.dropLast

/-- `select content from files where id = :id` followed by taking the
`content` field of the first row — the fetch `extract` performs per file.
The fallback `[]` for a missing row or a `NULL` content models the fatal
error the code would raise there; neither is reachable in the states the
claims quantify over (ids are unique and the fetched rows come from the
non-null-content query). -/
def fetchContent (db : List FileRecord) (id : String) : List Nat :=
  match db.find? (fun x => x.id = id) with
  | some x => x.content.getD []
  | none => []

/-- The `extract` command.  Phase 1 classifies every row of
`select id, path from files where content is not null` as already-present,
orphaned, or extractable; phase 2 aborts (reporting the distinct missing
parent directories) if any row is orphaned, and otherwise writes every
extractable row's stored content to its destination.  The `dryRun` flag is
accepted (the CLI declares `--dry-run`) but — exactly as in the source —
never consulted. -/
def extract (fs : List FsPath) (output : Option FsPath) (dryRun : Bool)
    (db : List FileRecord) : ExtractResult :=
  let contentRows := db.filter (fun r => r.content.isSome)
  let warn := (contentRows.filter (fun r => destExists fs output r.path)).length
  let orphanRows := contentRows.filter (fun r => isOrphan fs output r)
  let toExtract := contentRows.filter
    (fun r => !destExists fs output r.path && !isOrphan fs output r)
  let missingParents := (orphanRows.map (fun r => r.path.dropLast)).dedup
  if missingParents.isEmpty then
    { db := db
      writes := toExtract.map (fun r => (destPath output r.path, fetchContent db r.id))
      already_present := warn
      missing_parents := [] }
  else
    { db := db
      writes := []
      already_present := warn
      missing_parents := missingParents }

/-! ## Search -/

/-- Maximal space-free runs of a character list (accumulator holds the
current token reversed). -/
def tokensAux : List Char → List Char → List String
  | [], cur => if cur.isEmpty then [] else [String.mk cur.reverse]
  | ch :: rest, cur =>
      if ch = ' ' then
        if cur.isEmpty then tokensAux rest []
        else String.mk cur.reverse :: tokensAux rest []
      else tokensAux rest (ch :: cur)

/-- Tokens of the joined query string, as the FTS engine's tokenizer splits
them (stand-in: split on spaces; the porter stemmer and finer token rules are
external to the spec's scope).  FTS5 reports a syntax error when the query
text contains no token at all. -/
def ftsTokens (q : String) : List String :=
  tokensAux q.data []

/-- Does `needle` occur at the very start of `hay`? -/
def bytesAtStart : List Nat → List Nat → Bool
  | [], _ => true
  | _ :: _, [] => false
  | a :: as, b :: bs => a = b && bytesAtStart as bs

/-- Does `needle` occur contiguously anywhere inside `hay`? -/
def bytesInside (needle : List Nat) : List Nat → Bool
  | [] => needle.isEmpty
  | b :: rest => bytesAtStart needle (b :: rest) || bytesInside needle rest

/-- Does one query term match a row's FTS document (its `name` and
`plaintext-content` columns)?  Stand-in for the external FTS matcher: a term
matches if it occurs in either column. -/
def termMatches (r : FileRecord) (t : String) : Bool :=
  bytesInside (strBytes t) (strBytes r.name) || bytesInside (strBytes t) r.plaintext_content

/-- SQLite's `BINARY` collation on `TEXT` values: byte-wise (memcmp)
comparison of the UTF-8 encodings, shorter strings first on a tie. -/
def bytesLe : List Nat → List Nat → Bool
  | [], _ => true
  | _ :: _, [] => false
  | a :: as, b :: bs => if a < b then true else if b < a then false else bytesLe as bs

/-- Insert into a list sorted by `le` (an insertion sort step). -/
def insertLe {α : Type} (le : α → α → Bool) (x : α) : List α → List α
  | [] => [x]
  | y :: ys => if le x y then x :: y :: ys else y :: insertLe le x ys

/-- Insertion sort by `le` — the model of the SQL `ORDER BY` (SQLite does not
promise a particular order among ties; this picks one). -/
def sortLe {α : Type} (le : α → α → Bool) : List α → List α
  | [] => []
  | x :: xs => insertLe le x (sortLe le xs)

/-- `order by added desc` on the `TEXT` column `added`: descending in the
binary collation of the date strings. -/
def addedDesc (r1 r2 : FileRecord) : Bool :=
  bytesLe (strBytes r2.added) (strBytes r1.added)

/-- One result row of the search query:
`added`, `name`, `path`, `size`. -/
structure SearchRow where
  added : String
  name : String
  path : FsPath
  size : Nat
deriving Repr, DecidableEq

/-- The `search` command's query:
`select added, name, path, size from files where rowid in
(select rowid from files_fts where files_fts match :q)
order by added desc limit 50`, with `:q` the space-joined query terms.
An empty (token-free) query makes the FTS5 `MATCH` fail with a query syntax
error, which the command does not catch. -/
def search (db : List FileRecord) (query : List String) :
    Except String (List SearchRow) :=
  let fullQuery := joinWith " " query
  let toks := ftsTokens fullQuery
  if toks.isEmpty then .error "fts5: syntax error"
  else
    .ok (((sortLe addedDesc (db.filter (fun r => toks.all (termMatches r)))).take 50).map
      (fun r => { added := r.added, name := r.name, path := r.path, size := r.size }))

/-! ## Filesystem and path predicates used by the statements -/

/-- A filesystem state is ancestor-closed: the parent of every existing path
exists too.  Every real filesystem satisfies this. -/
def fsClosed (fs : List FsPath) : Prop :=
  ∀ p ∈ fs, p.dropLast ∈ fs

/-- `p` lies strictly below the directory `d` (a proper descendant). -/
def strictUnder (d p : FsPath) : Prop :=
  ∃ rest, rest ≠ [] ∧ p = d ++ rest

/-- `b` equals `a` or lies below it (`a` dominates `b`). -/
def dominates (a b : FsPath) : Prop :=
  ∃ rest, b = a ++ rest

/-- Two directories are separate: neither dominates the other.  Distinct
pending directories of a depth-first crawl are always separate. -/
def separate (a b : FsPath) : Prop :=
  ¬ dominates a b ∧ ¬ dominates b a

/-! ## Helper lemmas — store and purge -/

/-- Membership characterization of `pathIn`. -/
theorem pathIn_iff (db : List FileRecord) (p : FsPath) :
    pathIn db p = true ↔ ∃ r ∈ db, r.path = p := by
  simp [pathIn, List.any_eq_true]

/-- `pathIn` over an appended table. -/
theorem pathIn_append (db1 db2 : List FileRecord) (p : FsPath) :
    pathIn (db1 ++ db2) p = (pathIn db1 p || pathIn db2 p) := by
  simp [pathIn, List.any_append]

/-- In a table whose ids are pairwise distinct (the primary-key invariant),
a row is determined by its id. -/
theorem id_determines (db : List FileRecord) (hids : (db.map (fun r => r.id)).Nodup)
    (x r : FileRecord) (hx : x ∈ db) (hr : r ∈ db) (h : x.id = r.id) : x = r := by
  exact List.inj_on_of_nodup_map hids hx hr h

/-- Dry-run `purgeRows` leaves the table alone and counts the missing rows. -/
theorem purgeRows_dry (fs : List FsPath) (rows db : List FileRecord) (count : Nat) :
    purgeRows fs true rows db count =
      (db, count + (rows.filter (fun r => !fs.contains r.path)).length) := by
  induction rows generalizing count with
  | nil => simp [purgeRows]
  | cons r rest ih =>
      by_cases h : r.path ∈ fs
      · simp [purgeRows, h, ih]
      · simp [purgeRows, h, ih]
        omega

/-- Non-dry-run `purgeRows` deletes exactly the rows of the iterated list
whose path is gone (by id), and counts them. -/
theorem purgeRows_wet (fs : List FsPath) (rows db : List FileRecord) (count : Nat) :
    purgeRows fs false rows db count =
      (db.filter (fun x => !(rows.any (fun r => !fs.contains r.path && r.id = x.id))),
        count + (rows.filter (fun r => !fs.contains r.path)).length) := by
  induction rows generalizing db count with
  | nil => simp [purgeRows]
  | cons r rest ih =>
      by_cases h : r.path ∈ fs
      · simp [purgeRows, h, ih]
      · simp [purgeRows, h, ih, List.filter_filter]
        refine ⟨List.filter_congr fun x _ => ?_, by omega⟩
        by_cases hx : r.id = x.id <;> by_cases hx2 : x.id = r.id <;> simp_all

/-- Sample row builder used by concrete witnesses. -/
def sampleRow (i : String) (p : FsPath) (c : Option (List Nat)) : FileRecord :=
  { id := i, name := p.getLastD "", size := 0, path := p, added := "01-01-2021",
    plaintext_content := [], content := c }

/-- C3: `purge(dry_run=False)` deletes exactly the null-content rows whose
path no longer exists, leaving every other row unchanged, and reports their
count; `purge(dry_run=True)` deletes nothing and reports the same count.
The hypothesis is the primary-key invariant (pairwise-distinct ids), which
every reachable database state satisfies. -/
theorem purge_removes_exactly_missing_null_rows
    (fs : List FsPath) (db : List FileRecord)
    (hids : (db.map (fun r => r.id)).Nodup) :
    purge fs false db =
      (db.filter (fun r => !(r.content.isNone && !fs.contains r.path)),
        (db.filter (fun r => r.content.isNone && !fs.contains r.path)).length) ∧
    purge fs true db =
      (db, (db.filter (fun r => r.content.isNone && !fs.contains r.path)).length) := by
  have hcomb :
      ((db.filter (fun r => r.content.isNone)).filter (fun r => !fs.contains r.path)) =
        db.filter (fun r => r.content.isNone && !fs.contains r.path) := by
    rw [List.filter_filter]
    exact List.filter_congr (fun x _ => Bool.and_comm _ _)
  have hcount :
      ((db.filter (fun r => r.content.isNone)).filter (fun r => !fs.contains r.path)).length =
        (db.filter (fun r => r.content.isNone && !fs.contains r.path)).length := by
    rw [hcomb]
  constructor
  · rw [purge, purgeRows_wet]
    refine Prod.ext ?_ (by simpa using hcount)
    dsimp only
    apply List.filter_congr
    intro x hx
    have : ((db.filter (fun r => r.content.isNone)).any
        (fun r => !fs.contains r.path && r.id = x.id)) =
        (x.content.isNone && !fs.contains x.path) := by
      rw [Bool.eq_iff_iff]
      simp only [List.any_eq_true, List.mem_filter, Bool.and_eq_true, decide_eq_true_eq]
      constructor
      · rintro ⟨r, ⟨hrdb, hrnull⟩, hrmiss, hrid⟩
        have := id_determines db hids r x hrdb hx hrid
        subst this
        exact ⟨hrnull, hrmiss⟩
      · rintro ⟨hnull, hmiss⟩
        exact ⟨x, ⟨hx, hnull⟩, hmiss, rfl⟩
    rw [this]
  · rw [purge, purgeRows_dry]
    simpa using hcount

/-- Witness for C3 at a concrete state: two null-content rows (one whose
path exists, one whose path is gone) and one binary row whose path is also
gone; only the missing null-content row is deleted, and the dry run only
counts it. -/
theorem purge_removes_exactly_missing_null_rows_witness :
    purge [["d"], ["d", "a.html"]] false
      [sampleRow "1" ["d", "a.html"] none, sampleRow "2" ["d", "b.html"] none,
        sampleRow "3" ["d", "c.html"] (some [1])] =
      ([sampleRow "1" ["d", "a.html"] none, sampleRow "3" ["d", "c.html"] (some [1])], 1) ∧
    purge [["d"], ["d", "a.html"]] true
      [sampleRow "1" ["d", "a.html"] none, sampleRow "2" ["d", "b.html"] none,
        sampleRow "3" ["d", "c.html"] (some [1])] =
      ([sampleRow "1" ["d", "a.html"] none, sampleRow "2" ["d", "b.html"] none,
        sampleRow "3" ["d", "c.html"] (some [1])], 1) := by
  have h := purge_removes_exactly_missing_null_rows [["d"], ["d", "a.html"]]
    [sampleRow "1" ["d", "a.html"] none, sampleRow "2" ["d", "b.html"] none,
      sampleRow "3" ["d", "c.html"] (some [1])] (by decide)
  exact ⟨by rw [h.1]; decide, by rw [h.2]; decide⟩

/-- C8: inserting a record whose `id` is already present fails with the
uniqueness conflict (the store never silently replaces the existing row),
and a successful insert only appends, keeping every existing row. -/
theorem insert_refuses_silent_overwrite (db : List FileRecord) (r : FileRecord) :
    ((∃ x ∈ db, x.id = r.id) →
      dbInsert db r = .error "UNIQUE constraint failed: files.id") ∧
    (∀ db2, dbInsert db r = .ok db2 → db2 = db ++ [r] ∧ ∀ x ∈ db, x ∈ db2) := by
  constructor
  · rintro ⟨x, hx, hid⟩
    have : db.any (fun x => x.id = r.id) = true := by
      simp only [List.any_eq_true, decide_eq_true_eq]
      exact ⟨x, hx, hid⟩
    simp [dbInsert, this]
  · intro db2 h
    by_cases hc : db.any (fun x => x.id = r.id) = true
    · simp [dbInsert, hc] at h
    · simp [dbInsert, hc] at h
      exact ⟨h.symm, fun x hx => h ▸ List.mem_append_left _ hx⟩

/-- Witness for C8: inserting a second record with id "1" is refused. -/
theorem insert_refuses_silent_overwrite_witness :
    dbInsert [sampleRow "1" ["d", "a.html"] none] (sampleRow "1" ["d", "b.html"] none) =
      .error "UNIQUE constraint failed: files.id" :=
  (insert_refuses_silent_overwrite [sampleRow "1" ["d", "a.html"] none]
    (sampleRow "1" ["d", "b.html"] none)).1
    ⟨sampleRow "1" ["d", "a.html"] none, by decide, by decide⟩

/-- C10: `extract` never mutates the database: whatever the output directory
and dry-run flag, every row of the table is exactly as before — the command
only reads rows and writes files (despite the `--output` help text's talk of
updating entries). -/
theorem extract_never_mutates_db (fs : List FsPath) (output : Option FsPath)
    (dryRun : Bool) (db : List FileRecord) : (extract fs output dryRun db).db = db := by
  rw [extract]
  split <;> rfl

/-! ## Extract -/

/-- On an ancestor-closed filesystem, the orphan classification of a row
whose stored parent directory is gone always fires (the row itself cannot
exist either). -/
theorem isOrphan_of_parent_missing (fs : List FsPath) (hfs : fsClosed fs)
    (r : FileRecord) (h : r.path.dropLast ∉ fs) : isOrphan fs none r = true := by
  have hpath : r.path ∉ fs := fun hmem => h (hfs r.path hmem)
  simp [isOrphan, destExists, hpath, h]

/-- C2: with no output directory, if any non-null-content row's parent
directory no longer exists, `extract` performs zero filesystem writes — even
for rows that would themselves be extractable — and reports exactly the
distinct set of missing parent directories.  `fsClosed` states that the
filesystem is ancestor-closed (true of every real filesystem). -/
theorem extract_aborts_on_orphans (fs : List FsPath) (dryRun : Bool)
    (db : List FileRecord) (hfs : fsClosed fs)
    (h : ∃ r ∈ db, r.content.isSome = true ∧ r.path.dropLast ∉ fs) :
    (extract fs none dryRun db).writes = [] ∧
    (extract fs none dryRun db).missing_parents.Nodup ∧
    (∀ d, d ∈ (extract fs none dryRun db).missing_parents ↔
      ∃ r ∈ db, r.content.isSome = true ∧ r.path.dropLast = d ∧ d ∉ fs) := by
  obtain ⟨r0, hr0db, hr0some, hr0gone⟩ := h
  have habort :
      (((db.filter (fun r => r.content.isSome)).filter
        (fun r => isOrphan fs none r)).map (fun r => r.path.dropLast)).dedup ≠ [] := by
    have : r0.path.dropLast ∈
        (((db.filter (fun r => r.content.isSome)).filter
          (fun r => isOrphan fs none r)).map (fun r => r.path.dropLast)).dedup := by
      rw [List.mem_dedup]
      exact List.mem_map_of_mem _ (List.mem_filter.mpr
        ⟨List.mem_filter.mpr ⟨hr0db, hr0some⟩, isOrphan_of_parent_missing fs hfs r0 hr0gone⟩)
    exact fun hnil => List.not_mem_nil _ (hnil ▸ this)
  have hempty :
      ((((db.filter (fun r => r.content.isSome)).filter
        (fun r => isOrphan fs none r)).map (fun r => r.path.dropLast)).dedup).isEmpty = false := by
    rcases hd : (((db.filter (fun r => r.content.isSome)).filter
        (fun r => isOrphan fs none r)).map (fun r => r.path.dropLast)).dedup with _ | ⟨a, l⟩
    · exact absurd hd habort
    · rw [hd]
      rfl
  refine ⟨?_, ?_, ?_⟩
  · simp only [extract, hempty]
    rfl
  · simp only [extract, hempty]
    exact List.nodup_dedup _
  · intro d
    simp only [extract, hempty]
    show d ∈ (((db.filter (fun r => r.content.isSome)).filter
        (fun r => isOrphan fs none r)).map (fun r => r.path.dropLast)).dedup ↔ _
    rw [List.mem_dedup, List.mem_map]
    constructor
    · rintro ⟨r, hr, hrd⟩
      rw [List.mem_filter] at hr
      obtain ⟨hr1, hr2⟩ := hr
      rw [List.mem_filter] at hr1
      have hgone : r.path.dropLast ∉ fs := by
        simp [isOrphan] at hr2
        exact hr2.2
      exact ⟨r, hr1.1, by simpa using hr1.2, hrd, hrd ▸ hgone⟩
    · rintro ⟨r, hrdb, hrsome, hrd, hdgone⟩
      refine ⟨r, List.mem_filter.mpr ⟨List.mem_filter.mpr ⟨hrdb, by simpa using hrsome⟩, ?_⟩, hrd⟩
      exact isOrphan_of_parent_missing fs hfs r (hrd ▸ hdgone)

/-- Witness for C2 at a concrete state: one orphaned binary row (parent
directory `gone` missing) alongside a perfectly extractable binary row; no
write happens and the missing parent is reported. -/
theorem extract_aborts_on_orphans_witness :
    (extract [[], ["d"]] none false
      [sampleRow "1" ["gone", "a.html"] (some [1]),
        sampleRow "2" ["d", "b.html"] (some [2])]).writes = [] ∧
    (extract [[], ["d"]] none false
      [sampleRow "1" ["gone", "a.html"] (some [1]),
        sampleRow "2" ["d", "b.html"] (some [2])]).missing_parents = [["gone"]] := by
  have h := extract_aborts_on_orphans [[], ["d"]] false
    [sampleRow "1" ["gone", "a.html"] (some [1]), sampleRow "2" ["d", "b.html"] (some [2])]
    (by unfold fsClosed; decide)
    ⟨sampleRow "1" ["gone", "a.html"] (some [1]), by decide, by decide, by decide⟩
  exact ⟨h.1, by decide⟩

/-- C6 (evidence): `extract` ignores its `--dry-run` flag.  With
`dry_run=True` and one extractable binary row, the file is written anyway,
contradicting both the claim and the option's own help text
("Do not perform any actions."). -/
theorem extract_dry_run_still_writes :
    (extract [["d"]] none true [sampleRow "x" ["d", "f.html"] (some [104, 105])]).writes =
      [(["d", "f.html"], [104, 105])] := by decide

/-- C5 (evidence): indexing with `store_binary=True` does not store the
file's bytes exactly.  The file is read in text mode, so the CRLF file
`"hi\r\n"` (bytes `[104, 105, 13, 10]`) is stored as `"hi\n"`
(bytes `[104, 105, 10]`) — the stored content differs from the original
bytes, breaking the byte-exact round trip the claim states (the column is
declared `bytes` and the flag's help says "as binary"). -/
theorem store_binary_not_byte_exact :
    ((index_dir 3 "01-01-2021" true false ["r"]
        [.file "a.html" [104, 105, 13, 10]] [] {}).toOption.map
      (fun p => p.1.map (fun r => r.content))) = some [some [104, 105, 10]] ∧
    textRead [104, 105, 13, 10] = [104, 105, 10] ∧
    [104, 105, 10] ≠ [104, 105, 13, 10] := by
  exact ⟨by decide, by decide, by decide⟩

/-- C5 (complement): without `store_binary` the stored `content` is null, as
the claim's first half states. -/
theorem store_binary_false_null_content :
    ((index_dir 3 "01-01-2021" false false ["r"]
        [.file "a.html" [104, 105, 13, 10]] [] {}).toOption.map
      (fun p => p.1.map (fun r => r.content))) = some [none] := by decide

/-- C4 (evidence): `search` orders by the `added` string (stored as
`%d-%m-%Y`) in binary collation, which is not calendar order: with two
matching rows added `31-12-2020` and `01-01-2021`, the result places the
*older* `31-12-2020` row first because `"3" > "0"` byte-wise, violating
"newest-first ... in calendar order". -/
theorem search_order_not_calendar :
    search
      [{ id := "n", name := "new x", size := 1, path := ["d", "new.html"],
          added := "01-01-2021", plaintext_content := [], content := none },
        { id := "o", name := "old x", size := 1, path := ["d", "old.html"],
          added := "31-12-2020", plaintext_content := [], content := none }]
      ["x"] =
      .ok [{ added := "31-12-2020", name := "old x", path := ["d", "old.html"], size := 1 },
        { added := "01-01-2021", name := "new x", path := ["d", "new.html"], size := 1 }] := by
  rfl

/-- C9 (counterexample): running `search` with no query terms joins them to
the empty string, and the FTS `MATCH` against an empty query raises a syntax
error instead of returning an empty result list. -/
theorem search_empty_query_errors :
    search [sampleRow "1" ["d", "a.html"] none] [] = .error "fts5: syntax error" := by
  rfl

/-- C9 (amended): a query with at least one token that matches no row
completes normally with the empty result list; but a token-free (empty)
query propagates the FTS syntax error. -/
theorem search_zero_results_ok_empty_query_errors
    (db : List FileRecord) (query : List String) :
    (ftsTokens (joinWith " " query) = [] →
      search db query = .error "fts5: syntax error") ∧
    (ftsTokens (joinWith " " query) ≠ [] →
      (∀ r ∈ db, ∃ t ∈ ftsTokens (joinWith " " query), termMatches r t = false) →
      search db query = .ok []) := by
  constructor
  · intro h
    simp [search, h]
  · intro h hnone
    have hfilter : db.filter
        (fun r => (ftsTokens (joinWith " " query)).all (termMatches r)) = [] := by
      rw [List.filter_eq_nil_iff]
      intro r hr
      obtain ⟨t, ht, hf⟩ := hnone r hr
      simp only [List.all_eq_true, not_forall]
      exact ⟨t, ht, by simp [hf]⟩
    rw [search]
    simp only [List.isEmpty_eq_true, hfilter]
    rw [if_neg (by simpa using h)]
    simp [sortLe]

/-- Witness for C9's amended statement: a term matching no row yields an
empty, non-erroring result at a concrete state. -/
theorem search_zero_results_witness :
    search [sampleRow "1" ["d", "a.html"] none] ["zzz"] = .ok [] :=
  (search_zero_results_ok_empty_query_errors
    [sampleRow "1" ["d", "a.html"] none] ["zzz"]).2 (by decide) (by decide)

/-! ## Helper lemmas — the crawler -/

/-- A successful insert appends the row. -/
theorem dbInsert_ok (db : List FileRecord) (r : FileRecord) (db1 : List FileRecord)
    (h : dbInsert db r = .ok db1) : db1 = db ++ [r] := by
  by_cases hc : db.any (fun x => x.id = r.id) = true
  · simp [dbInsert, hc] at h
  · simp [dbInsert, hc] at h
    exact h.symm

/-- `pathIn` is false exactly when no row carries the path. -/
theorem pathIn_eq_false (db : List FileRecord) (p : FsPath) :
    pathIn db p = false ↔ ∀ r ∈ db, r.path ≠ p := by
  simp [pathIn]

/-- What one directory's file pass does to the table: it only appends rows,
each a qualifying file of this directory's listing with its path under the
directory, and the counters only grow. -/
theorem processFiles_master (today : String) (sb : Bool) (dirPath : FsPath)
    (entries : List Entry) :
    ∀ (db : List FileRecord) (s : IndexStats) (db' : List FileRecord) (s' : IndexStats),
    processFiles today sb dirPath entries db s = .ok (db', s') →
    ∃ ext, db' = db ++ ext ∧
      (∀ r ∈ ext, r.path = dirPath ++ [r.name] ∧ qualifies r.name = true ∧
        ∃ b, Entry.file r.name b ∈ entries) ∧
      s.already_indexed ≤ s'.already_indexed ∧ s.indexed ≤ s'.indexed := by
  induction entries with
  | nil =>
      intro db s db' s' h
      simp only [processFiles, Except.ok.injEq, Prod.mk.injEq] at h
      exact ⟨[], by simp [h.1], by simp, le_of_eq (by rw [h.2]), le_of_eq (by rw [h.2])⟩
  | cons e rest ih =>
      intro db s db' s' h
      cases e with
      | dir n sub =>
          obtain ⟨ext, hdb, hprops, ha, hi⟩ := ih db s db' s' (by simpa [processFiles] using h)
          exact ⟨ext, hdb,
            fun r hr => ⟨(hprops r hr).1, (hprops r hr).2.1,
              (hprops r hr).2.2.elim fun b hb => ⟨b, List.mem_cons_of_mem _ hb⟩⟩,
            ha, hi⟩
      | file nm bytes =>
          simp only [processFiles] at h
          split at h
          next hq =>
            split at h
            next hp =>
              obtain ⟨ext, hdb, hprops, ha, hi⟩ := ih _ _ _ _ h
              refine ⟨ext, hdb,
                fun r hr => ⟨(hprops r hr).1, (hprops r hr).2.1,
                  (hprops r hr).2.2.elim fun b hb => ⟨b, List.mem_cons_of_mem _ hb⟩⟩,
                ?_, ?_⟩
              · simp at ha; omega
              · exact hi
            next hp =>
              split at h
              next e heq => exact absurd h (by simp)
              next db1 hins =>
                have hdb1 := dbInsert_ok _ _ _ hins
                obtain ⟨ext, hdb, hprops, ha, hi⟩ := ih _ _ _ _ h
                subst hdb1
                refine ⟨_ :: ext, by simpa using hdb, ?_, ?_, ?_⟩
                · intro r hr
                  rcases List.mem_cons.mp hr with hr | hr
                  · subst hr
                    exact ⟨rfl, hq, bytes, List.mem_cons_self _ _⟩
                  · exact ⟨(hprops r hr).1, (hprops r hr).2.1,
                      (hprops r hr).2.2.elim fun b hb => ⟨b, List.mem_cons_of_mem _ hb⟩⟩
                · exact ha
                · simp at hi; omega
          next hq =>
            obtain ⟨ext, hdb, hprops, ha, hi⟩ := ih _ _ _ _ h
            exact ⟨ext, hdb,
              fun r hr => ⟨(hprops r hr).1, (hprops r hr).2.1,
                (hprops r hr).2.2.elim fun b hb => ⟨b, List.mem_cons_of_mem _ hb⟩⟩,
              ha, hi⟩

/-- Cancel a shared directory in front of singleton components. -/
theorem append_singleton_inj {α : Type} (d : List α) (a b : α)
    (h : d ++ [a] = d ++ [b]) : a = b := by
  simpa using h

/-- Replaying one directory's file pass against a table that already holds
every path present after the original pass never inserts: the table is left
unchanged and each file the original pass counted (as indexed or as already
indexed) is now counted as already indexed. -/
theorem processFiles_replay (t1 t2 : String) (sb : Bool) (dirPath : FsPath)
    (entries : List Entry) :
    ∀ (db : List FileRecord) (s : IndexStats) (db1 : List FileRecord) (s1 : IndexStats)
      (db2 : List FileRecord),
    processFiles t1 sb dirPath entries db s = .ok (db1, s1) →
    (∀ p, pathIn db1 p = true → pathIn db2 p = true) →
    ∀ u : IndexStats, processFiles t2 sb dirPath entries db2 u =
      .ok (db2, IndexStats.mk
        (u.already_indexed + ((s1.indexed - s.indexed) + (s1.already_indexed - s.already_indexed)))
        u.indexed) := by
  induction entries with
  | nil =>
      intro db s db1 s1 db2 h hsub u
      simp only [processFiles, Except.ok.injEq, Prod.mk.injEq] at h
      obtain ⟨h1, h2⟩ := h
      subst h2
      cases u
      simp [processFiles]
  | cons e rest ih =>
      intro db s db1 s1 db2 h hsub u
      cases e with
      | dir n sub =>
          simp only [processFiles] at h ⊢
          exact ih db s db1 s1 db2 h hsub u
      | file nm bytes =>
          simp only [processFiles] at h ⊢
          split at h
          next hq =>
            rw [if_pos hq]
            split at h
            next hp =>
              have hpath1 : pathIn db1 (dirPath ++ [nm]) = true := by
                obtain ⟨ext, hdb, _, _, _⟩ := processFiles_master t1 sb dirPath rest _ _ _ _ h
                subst hdb
                rw [pathIn_append, hp]
                rfl
              rw [if_pos (hsub _ hpath1)]
              rw [ih _ _ _ _ _ h hsub (IndexStats.mk (u.already_indexed + 1) u.indexed)]
              obtain ⟨_, _, _, ha, hi⟩ := processFiles_master t1 sb dirPath rest _ _ _ _ h
              have ha2 : s.already_indexed + 1 ≤ s1.already_indexed := by simpa using ha
              simp only [Except.ok.injEq, Prod.mk.injEq, IndexStats.mk.injEq]
              refine ⟨trivial, ?_, trivial⟩
              omega
            next hp =>
              split at h
              next e heq => exact absurd h (by simp)
              next dbi hins =>
                have hdbi := dbInsert_ok _ _ _ hins
                have hpathi : pathIn dbi (dirPath ++ [nm]) = true := by
                  subst hdbi
                  simp [pathIn_append, pathIn]
                have hpath1 : pathIn db1 (dirPath ++ [nm]) = true := by
                  obtain ⟨ext, hdb, _, _, _⟩ := processFiles_master t1 sb dirPath rest _ _ _ _ h
                  subst hdb
                  rw [pathIn_append, hpathi]
                  rfl
                rw [if_pos (hsub _ hpath1)]
                rw [ih _ _ _ _ _ h hsub (IndexStats.mk (u.already_indexed + 1) u.indexed)]
                obtain ⟨_, _, _, ha, hi⟩ := processFiles_master t1 sb dirPath rest _ _ _ _ h
                have hi2 : s.indexed + 1 ≤ s1.indexed := by simpa using hi
                simp only [Except.ok.injEq, Prod.mk.injEq, IndexStats.mk.injEq]
                refine ⟨trivial, ?_, trivial⟩
                omega
          next hq =>
            rw [if_neg hq]
            exact ih db s db1 s1 db2 h hsub u

/-- When no listed file's path is in the table yet (and the listing has no
duplicate names), the file pass of one directory never finds anything
already indexed. -/
theorem processFiles_fresh (t : String) (sb : Bool) (dirPath : FsPath)
    (entries : List Entry) :
    ∀ (db : List FileRecord) (s : IndexStats) (db' : List FileRecord) (s' : IndexStats),
    (entries.map entryName).Nodup →
    (∀ nm b, Entry.file nm b ∈ entries → pathIn db (dirPath ++ [nm]) = false) →
    processFiles t sb dirPath entries db s = .ok (db', s') →
    s'.already_indexed = s.already_indexed := by
  induction entries with
  | nil =>
      intro db s db' s' _ _ h
      simp only [processFiles, Except.ok.injEq, Prod.mk.injEq] at h
      rw [h.2]
  | cons e rest ih =>
      intro db s db' s' hnodup hfresh h
      cases e with
      | dir n sub =>
          simp only [processFiles] at h
          exact ih db s db' s' (by simpa using hnodup.of_cons)
            (fun nm b hm => hfresh nm b (List.mem_cons_of_mem _ hm)) h
      | file nm bytes =>
          simp only [processFiles] at h
          split at h
          next hq =>
            split at h
            next hp =>
              exact absurd hp (by simp [hfresh nm bytes (List.mem_cons_self _ _)])
            next hp =>
              split at h
              next e heq => exact absurd h (by simp)
              next dbi hins =>
                have hdbi := dbInsert_ok _ _ _ hins
                refine ih dbi (IndexStats.mk s.already_indexed (s.indexed + 1)) db' s'
                  (by simpa using hnodup.of_cons) ?_ h
                intro m b hm
                subst hdbi
                rw [pathIn_append]
                have hdbpart := hfresh m b (List.mem_cons_of_mem _ hm)
                rw [hdbpart]
                simp only [Bool.false_or]
                simp only [pathIn, List.any_cons, List.any_nil, Bool.or_false]
                rw [decide_eq_false_iff_not]
                intro hpeq
                have : m = nm := by
                  have := append_singleton_inj dirPath nm m hpeq
                  exact this.symm
                subst this
                have hmem : m ∈ rest.map entryName := by
                  exact List.mem_map_of_mem entryName hm
                simp only [List.map_cons, List.nodup_cons] at hnodup
                exact hnodup.1 (by simpa [entryName] using hmem)
          next hq =>
            exact ih db s db' s' (by simpa using hnodup.of_cons)
              (fun m b hm => hfresh m b (List.mem_cons_of_mem _ hm)) h

/-! ## Helper lemmas — path dominance -/

/-- A directory dominates its immediate children. -/
theorem dominates_append_singleton (d : FsPath) (x : String) :
    dominates d (d ++ [x]) :=
  ⟨[x], rfl⟩

/-- Dominance is transitive. -/
theorem dominates_trans {a b c : FsPath} (h1 : dominates a b) (h2 : dominates b c) :
    dominates a c := by
  obtain ⟨r1, hr1⟩ := h1
  obtain ⟨r2, hr2⟩ := h2
  exact ⟨r1 ++ r2, by rw [hr2, hr1, List.append_assoc]⟩

/-- Dominance only lengthens paths. -/
theorem dominates_length {a b : FsPath} (h : dominates a b) : a.length ≤ b.length := by
  obtain ⟨r, hr⟩ := h
  subst hr
  simp

/-- Dominance between equal-length paths is equality. -/
theorem dominates_eq_of_length {a b : FsPath} (h : dominates a b)
    (hl : b.length ≤ a.length) : a = b := by
  obtain ⟨r, hr⟩ := h
  subst hr
  simp at hl
  subst hl
  simp

/-- Whoever dominates a path with one extra component either is that path or
dominates the directory above it. -/
theorem dominates_snoc {a b : FsPath} {x : String} (h : dominates a (b ++ [x])) :
    a = b ++ [x] ∨ dominates a b := by
  obtain ⟨r, hr⟩ := h
  rcases List.eq_nil_or_concat r with hnil | ⟨r0, rl, hconcat⟩
  · subst hnil
    exact Or.inl (by simpa using hr.symm)
  · subst hconcat
    right
    rw [List.concat_eq_append, ← List.append_assoc] at hr
    have hr2 := hr.symm
    have hlen : (a ++ r0).length = b.length := by
      have := congrArg List.length hr2
      simp at this
      simp
      omega
    obtain ⟨hpre, _⟩ := List.append_inj hr2 hlen
    exact ⟨r0, hpre.symm⟩

/-- Equal-length distinct paths are separate. -/
theorem separate_of_length_ne {a b : FsPath} (hl : a.length = b.length) (hne : a ≠ b) :
    separate a b := by
  constructor
  · intro hdom
    exact hne (dominates_eq_of_length hdom (by omega))
  · intro hdom
    exact hne (dominates_eq_of_length hdom (by omega)).symm

/-- Separateness from a directory extends to the directory's children. -/
theorem separate_snoc_of_separate {d b : FsPath} (h : separate d b) (x : String) :
    separate (d ++ [x]) b := by
  obtain ⟨h1, h2⟩ := h
  constructor
  · intro hdom
    exact h1 (dominates_trans (dominates_append_singleton d x) hdom)
  · intro hdom
    rcases dominates_snoc hdom with heq | hdom2
    · exact h1 (heq ▸ dominates_append_singleton d x)
    · exact h2 hdom2

/-- The jobs pushed for one directory are exactly its subdirectory entries,
each under the directory's path. -/
theorem mem_subJobs (dirPath : FsPath) (entries : List Entry)
    (j : FsPath × List Entry) :
    j ∈ subJobs dirPath entries ↔
      ∃ nm sub, j = (dirPath ++ [nm], sub) ∧ Entry.dir nm sub ∈ entries := by
  induction entries with
  | nil => simp [subJobs]
  | cons e rest ih =>
      cases e with
      | file n b =>
          simp only [subJobs, ih]
          constructor
          · rintro ⟨nm, sub, hj, hm⟩
            exact ⟨nm, sub, hj, List.mem_cons_of_mem _ hm⟩
          · rintro ⟨nm, sub, hj, hm⟩
            rcases List.mem_cons.mp hm with hm | hm
            · exact absurd hm (by simp)
            · exact ⟨nm, sub, hj, hm⟩
      | dir n sub =>
          simp only [subJobs, List.mem_cons, ih]
          constructor
          · rintro (hj | ⟨nm, s2, hj, hm⟩)
            · exact ⟨n, sub, hj, Or.inl rfl⟩
            · exact ⟨nm, s2, hj, Or.inr hm⟩
          · rintro ⟨nm, s2, hj, hm | hm⟩
            · cases hm
              exact Or.inl hj
            · exact Or.inr ⟨nm, s2, hj, hm⟩

/-- With distinct child names, the directories pushed for one listing are
pairwise separate. -/
theorem subJobs_pairwise (dirPath : FsPath) (entries : List Entry)
    (hnames : (entries.map entryName).Nodup) :
    ((subJobs dirPath entries).map Prod.fst).Pairwise separate := by
  induction entries with
  | nil => simp [subJobs]
  | cons e rest ih =>
      have htail := ih (by simpa using hnames.of_cons)
      cases e with
      | file n b => simpa [subJobs] using htail
      | dir n sub =>
          simp only [subJobs, List.map_cons, List.pairwise_cons]
          refine ⟨?_, htail⟩
          intro y hy
          obtain ⟨j, hj, hjy⟩ := List.mem_map.mp hy
          obtain ⟨nm, s2, hjeq, hm⟩ := (mem_subJobs dirPath rest j).mp hj
          subst hjy
          rw [hjeq]
          refine separate_of_length_ne (by simp) ?_
          intro heq
          have : n = nm := append_singleton_inj dirPath n nm heq
      
          subst this
          simp only [List.map_cons, List.nodup_cons] at hnames
          exact hnames.1 (by
            have : entryName (Entry.dir n s2) ∈ rest.map entryName :=
              List.mem_map_of_mem entryName hm
            simpa [entryName] using this)

/-! ## Helper lemmas — the worklist crawl -/

/-- The whole crawl only appends rows, every appended row is a qualifying
file, and the counters only grow. -/
theorem index_jobs_master (t : String) (sb rec : Bool) :
    ∀ (fuel : Nat) (jobs : List (FsPath × List Entry)) (db : List FileRecord)
      (s : IndexStats) (db' : List FileRecord) (s' : IndexStats),
    index_jobs t sb rec fuel jobs db s = .ok (db', s') →
    ∃ ext, db' = db ++ ext ∧ (∀ r ∈ ext, qualifies r.name = true) ∧
      s.already_indexed ≤ s'.already_indexed ∧ s.indexed ≤ s'.indexed := by
  intro fuel
  induction fuel with
  | zero =>
      intro jobs db s db' s' h
      cases jobs with
      | nil =>
          simp only [index_jobs, Except.ok.injEq, Prod.mk.injEq] at h
          exact ⟨[], by simp [h.1], by simp, le_of_eq (by rw [h.2]), le_of_eq (by rw [h.2])⟩
      | cons j js => exact absurd h (by simp [index_jobs])
  | succ fuel ih =>
      intro jobs db s db' s' h
      cases jobs with
      | nil =>
          simp only [index_jobs, Except.ok.injEq, Prod.mk.injEq] at h
          exact ⟨[], by simp [h.1], by simp, le_of_eq (by rw [h.2]), le_of_eq (by rw [h.2])⟩
      | cons j js =>
          obtain ⟨dirPath, entries⟩ := j
          simp only [index_jobs] at h
          split at h
          next e heq => exact absurd h (by simp)
          next dbA sA heq =>
            obtain ⟨ext1, hdb1, hq1, ha1, hi1⟩ :=
              processFiles_master t sb dirPath entries db s dbA sA heq
            obtain ⟨ext2, hdb2, hq2, ha2, hi2⟩ := ih _ _ _ _ _ h
            refine ⟨ext1 ++ ext2, by rw [hdb2, hdb1, List.append_assoc], ?_,
              le_trans ha1 ha2, le_trans hi1 hi2⟩
            intro r hr
            rcases List.mem_append.mp hr with hr | hr
            · exact (hq1 r hr).2.1
            · exact hq2 r hr

/-- Replaying the whole crawl against a table that already holds every path
present after the original run keeps the table unchanged and counts every
originally-counted file as already indexed. -/
theorem index_jobs_replay (t1 t2 : String) (sb rec : Bool) :
    ∀ (fuel : Nat) (jobs : List (FsPath × List Entry)) (db : List FileRecord)
      (s : IndexStats) (db1 : List FileRecord) (s1 : IndexStats) (db2 : List FileRecord),
    index_jobs t1 sb rec fuel jobs db s = .ok (db1, s1) →
    (∀ p, pathIn db1 p = true → pathIn db2 p = true) →
    ∀ u : IndexStats, index_jobs t2 sb rec fuel jobs db2 u =
      .ok (db2, IndexStats.mk
        (u.already_indexed + ((s1.indexed - s.indexed) + (s1.already_indexed - s.already_indexed)))
        u.indexed) := by
  intro fuel
  induction fuel with
  | zero =>
      intro jobs db s db1 s1 db2 h hsub u
      cases jobs with
      | nil =>
          simp only [index_jobs, Except.ok.injEq, Prod.mk.injEq] at h
          obtain ⟨h1, h2⟩ := h
          subst h2
          cases u
          simp [index_jobs]
      | cons j js => exact absurd h (by simp [index_jobs])
  | succ fuel ih =>
      intro jobs db s db1 s1 db2 h hsub u
      cases jobs with
      | nil =>
          simp only [index_jobs, Except.ok.injEq, Prod.mk.injEq] at h
          obtain ⟨h1, h2⟩ := h
          subst h2
          cases u
          simp [index_jobs]
      | cons j js =>
          obtain ⟨dirPath, entries⟩ := j
          simp only [index_jobs] at h ⊢
          split at h
          next e heq => exact absurd h (by simp)
          next dbA sA heq =>
            have hsubA : ∀ p, pathIn dbA p = true → pathIn db2 p = true := by
              intro p hp
              obtain ⟨ext2, hdb2, _, _, _⟩ := index_jobs_master t1 sb rec fuel _ _ _ _ _ h
              refine hsub p ?_
              rw [hdb2, pathIn_append, hp]
              rfl
            have hrepl := processFiles_replay t1 t2 sb dirPath entries db s dbA sA db2
              heq hsubA u
            simp only [hrepl]
            rw [ih _ _ _ _ _ _ h hsub (IndexStats.mk
              (u.already_indexed + ((sA.indexed - s.indexed) + (sA.already_indexed - s.already_indexed)))
              u.indexed)]
            obtain ⟨_, _, _, ha1, hi1⟩ :=
              processFiles_master t1 sb dirPath entries db s dbA sA heq
            obtain ⟨_, _, _, ha2, hi2⟩ := index_jobs_master t1 sb rec fuel _ _ _ _ _ h
            simp only [Except.ok.injEq, Prod.mk.injEq, IndexStats.mk.injEq]
            refine ⟨trivial, ?_, trivial⟩
            omega

/-- When the pending directories are pairwise separate, every pending tree is
well formed, and no table row lies under a pending directory, the crawl finds
nothing already indexed: every file it meets is new. -/
theorem index_jobs_fresh (t : String) (sb rec : Bool) :
    ∀ (fuel : Nat) (jobs : List (FsPath × List Entry)) (db : List FileRecord)
      (s : IndexStats) (db' : List FileRecord) (s' : IndexStats),
    (∀ j ∈ jobs, WFList j.2) →
    ((jobs.map Prod.fst).Pairwise separate) →
    (∀ r ∈ db, ∀ j ∈ jobs, ¬ dominates j.1 r.path) →
    index_jobs t sb rec fuel jobs db s = .ok (db', s') →
    s'.already_indexed = s.already_indexed := by
  intro fuel
  induction fuel with
  | zero =>
      intro jobs db s db' s' _ _ _ h
      cases jobs with
      | nil =>
          simp only [index_jobs, Except.ok.injEq, Prod.mk.injEq] at h
          rw [h.2]
      | cons j js => exact absurd h (by simp [index_jobs])
  | succ fuel ih =>
      intro jobs db s db' s' hwf hpair hdb h
      cases jobs with
      | nil =>
          simp only [index_jobs, Except.ok.injEq, Prod.mk.injEq] at h
          rw [h.2]
      | cons j js =>
          obtain ⟨dirPath, entries⟩ := j
          simp only [index_jobs] at h
          split at h
          next e heq => exact absurd h (by simp)
          next dbA sA heq =>
            have hwfhead : WFList entries := hwf (dirPath, entries) (List.mem_cons_self _ _)
            obtain ⟨e0, hnames, hall⟩ := hwfhead
            have hp2 : (∀ (a' : FsPath) (x : List Entry), (a', x) ∈ js →
                separate dirPath a') ∧ (js.map Prod.fst).Pairwise separate := by
              simpa using hpair
            have hsephead : ∀ b ∈ js.map Prod.fst, separate dirPath b := by
              intro b hb
              obtain ⟨⟨b1, b2⟩, hj, hjb⟩ := List.mem_map.mp hb
              simp only [] at hjb
              subst hjb
              exact hp2.1 b1 b2 hj
            have hpairtail : (js.map Prod.fst).Pairwise separate := hp2.2
            have hfreshhead : ∀ nm b, Entry.file nm b ∈ entries →
                pathIn db (dirPath ++ [nm]) = false := by
              intro nm b hm
              rw [pathIn_eq_false]
              intro r hr hrp
              refine hdb r hr (dirPath, entries) (List.mem_cons_self _ _) ?_
              rw [hrp]
              exact dominates_append_singleton dirPath nm
            have hAzero : sA.already_indexed = s.already_indexed :=
              processFiles_fresh t sb dirPath entries db s dbA sA hnames hfreshhead heq
            obtain ⟨extA, hdbA, hprops, _, _⟩ :=
              processFiles_master t sb dirPath entries db s dbA sA heq
            have hwfsub : ∀ j ∈ subJobs dirPath entries, WFList j.2 := by
              intro j hj
              obtain ⟨nm, sub, hjeq, hm⟩ := (mem_subJobs dirPath entries j).mp hj
              have hwfe := hall _ hm
              cases hwfe with
              | dir _ _ hsub =>
                  subst hjeq
                  exact hsub
            have hsepsub : ∀ j ∈ subJobs dirPath entries, ∀ b ∈ js.map Prod.fst,
                separate j.1 b := by
              intro j hj b hb
              obtain ⟨nm, sub, hjeq, hm⟩ := (mem_subJobs dirPath entries j).mp hj
              subst hjeq
              exact separate_snoc_of_separate (hsephead b hb) nm
            have hpairsub := subJobs_pairwise dirPath entries hnames
            have hdbsub : ∀ r ∈ dbA,
                ∀ j ∈ (if rec then subJobs dirPath entries else []) ++ js,
                ¬ dominates j.1 r.path := by
              intro r hr j hj hdom
              rcases List.mem_append.mp hj with hjs | hjs
              · have hjsub : j ∈ subJobs dirPath entries := by
                  cases rec
                  · simp at hjs
                  · simpa using hjs
                obtain ⟨nm, sub, hjeq, hm⟩ := (mem_subJobs dirPath entries j).mp hjsub
                subst hjeq
                rcases List.mem_append.mp (hdbA ▸ hr) with hrdb | hrext
                · exact hdb r hrdb (dirPath, entries) (List.mem_cons_self _ _)
                    (dominates_trans (dominates_append_singleton dirPath nm) hdom)
                · obtain ⟨hpath, hq, b0, hfile⟩ := hprops r hrext
                  rw [hpath] at hdom
                  have heqp : dirPath ++ [nm] = dirPath ++ [r.name] :=
                    dominates_eq_of_length hdom (by simp)
                  have hnm : nm = r.name := append_singleton_inj dirPath nm r.name heqp
                  subst hnm
                  have hinj := List.inj_on_of_nodup_map hnames hfile hm (by simp [entryName])
                  exact absurd hinj (by simp)
              · rcases List.mem_append.mp (hdbA ▸ hr) with hrdb | hrext
                · exact hdb r hrdb j (List.mem_cons_of_mem _ hjs) hdom
                · obtain ⟨hpath, hq, b0, hfile⟩ := hprops r hrext
                  rw [hpath] at hdom
                  have hsep : separate dirPath j.1 :=
                    hsephead j.1 (List.mem_map_of_mem _ hjs)
                  rcases dominates_snoc hdom with heq2 | hdom2
                  · refine hsep.1 ?_
                    rw [heq2]
                    exact dominates_append_singleton dirPath r.name
                  · exact hsep.2 hdom2
            have hpairnew :
                ((((if rec then subJobs dirPath entries else []) ++ js).map Prod.fst)).Pairwise
                  separate := by
              rw [List.map_append, List.pairwise_append]
              refine ⟨?_, hpairtail, ?_⟩
              · cases rec
                · simp
                · simpa using hpairsub
              · intro a ha b hb
                have hasub : a ∈ (subJobs dirPath entries).map Prod.fst := by
                  cases rec
                  · simp at ha
                  · simpa using ha
                obtain ⟨j, hj, hja⟩ := List.mem_map.mp hasub
                subst hja
                exact hsepsub j hj b hb
            have hwfnew : ∀ j ∈ (if rec then subJobs dirPath entries else []) ++ js,
                WFList j.2 := by
              intro j hj
              rcases List.mem_append.mp hj with hjs | hjs
              · refine hwfsub j ?_
                cases rec
                · simp at hjs
                · simpa using hjs
              · exact hwf j (List.mem_cons_of_mem _ hjs)
            exact (ih _ dbA sA db' s' hwfnew hpairnew hdbsub h).trans hAzero

/-- C1: indexing is idempotent.  For every directory tree (well formed: no
directory listing repeats a child name, as on every real filesystem), every
option combination and any fuel, if a first `index_dir` run over a fresh
(empty) table succeeds with stats `s1`, then a second run over the same
unchanged tree returns the table unchanged — the row count does not grow —
with `indexed = 0` and `already_indexed` equal to the first run's `indexed`
count.  The current date may differ between the runs. -/
theorem index_idempotent (fuel : Nat) (t1 t2 : String) (sb rec : Bool)
    (dirPath : FsPath) (entries : List Entry) (db1 : List FileRecord) (s1 : IndexStats)
    (hwf : WFList entries)
    (h1 : index_dir fuel t1 sb rec dirPath entries [] (IndexStats.mk 0 0) = .ok (db1, s1)) :
    index_dir fuel t2 sb rec dirPath entries db1 (IndexStats.mk 0 0) =
      .ok (db1, IndexStats.mk s1.indexed 0) := by
  simp only [index_dir] at h1 ⊢
  have hfresh := index_jobs_fresh t1 sb rec fuel [(dirPath, entries)] []
    (IndexStats.mk 0 0) db1 s1
    (by
      intro j hj
      simp at hj
      rw [hj]
      exact hwf)
    (by simp)
    (by simp)
    h1
  have hrepl := index_jobs_replay t1 t2 sb rec fuel [(dirPath, entries)] []
    (IndexStats.mk 0 0) db1 s1 db1 h1 (fun p hp => hp) (IndexStats.mk 0 0)
  rw [hrepl]
  simp only [Except.ok.injEq, Prod.mk.injEq, IndexStats.mk.injEq]
  refine ⟨trivial, ?_, trivial⟩
  simp only [IndexStats.already_indexed] at hfresh
  omega

/-- Witness for C1 at a concrete tree: one file `root/a.html`, first run
indexes it (stats 0/1), second run reports it already indexed (stats 1/0)
and leaves the single-row table unchanged. -/
theorem index_idempotent_witness :
    index_dir 3 "02-01-2021" false false ["root"] [Entry.file "a.html" [104]]
      [FileRecord.mk (md5_hexdigest (pathStr ["root", "a.html"])) "a.html" 1
        ["root", "a.html"] "01-01-2021" [104] none] (IndexStats.mk 0 0) =
      .ok ([FileRecord.mk (md5_hexdigest (pathStr ["root", "a.html"])) "a.html" 1
        ["root", "a.html"] "01-01-2021" [104] none], IndexStats.mk 1 0) := by
  have hwf : WFList [Entry.file "a.html" [104]] :=
    WFList.mk _ (by simp) (fun e he => by
      rw [List.mem_singleton] at he
      rw [he]
      exact WFEntry.file _ _)
  exact index_idempotent 3 "01-01-2021" "02-01-2021" false false ["root"]
    [Entry.file "a.html" [104]]
    [FileRecord.mk (md5_hexdigest (pathStr ["root", "a.html"])) "a.html" 1
      ["root", "a.html"] "01-01-2021" [104] none] (IndexStats.mk 0 1) hwf (by rfl)

set_option maxRecDepth 100000

/-- C7: the crawler's extension filter and recursion.  Concretely, for the
spec's tree `root/{a.html, sub/{b.htm, c.txt}}`: a recursive index stores
exactly `root/a.html` and `root/sub/b.htm` (never `c.txt`) with stats 0/2,
and a non-recursive index stores exactly `root/a.html` with stats 0/1.  In
general, any row a successful run adds to any table carries a name whose
suffix lower-cases to `.html` or `.htm`. -/
theorem crawl_extension_filter_and_recursion :
    ((index_dir 9 "01-01-2021" false true ["root"]
        [Entry.file "a.html" [104],
          Entry.dir "sub" [Entry.file "b.htm" [105], Entry.file "c.txt" [106]]]
        [] (IndexStats.mk 0 0)).toOption.map
      (fun p => (p.1.map (fun r => r.path), p.2)) =
      some ([["root", "a.html"], ["root", "sub", "b.htm"]], IndexStats.mk 0 2)) ∧
    ((index_dir 9 "01-01-2021" false false ["root"]
        [Entry.file "a.html" [104],
          Entry.dir "sub" [Entry.file "b.htm" [105], Entry.file "c.txt" [106]]]
        [] (IndexStats.mk 0 0)).toOption.map
      (fun p => (p.1.map (fun r => r.path), p.2)) =
      some ([["root", "a.html"]], IndexStats.mk 0 1)) ∧
    (∀ (fuel : Nat) (t : String) (sb rec : Bool) (dirPath : FsPath)
        (entries : List Entry) (db : List FileRecord) (s : IndexStats)
        (db' : List FileRecord) (s' : IndexStats),
      index_dir fuel t sb rec dirPath entries db s = .ok (db', s') →
      ∀ r ∈ db', r ∈ db ∨ qualifies r.name = true) := by
  refine ⟨by decide, by decide, ?_⟩
  intro fuel t sb rec dirPath entries db s db' s' h r hr
  obtain ⟨ext, hdb, hq, _, _⟩ := index_jobs_master t sb rec fuel [(dirPath, entries)]
    db s db' s' (by simpa [index_dir] using h)
  subst hdb
  rcases List.mem_append.mp hr with h1 | h1
  · exact Or.inl h1
  · exact Or.inr (hq r h1)

/-- Witness for C7's general clause at a concrete run: the single row the
run of `index_dir` over `r/{x.html}` adds qualifies by extension. -/
theorem crawl_extension_filter_witness :
    ∀ r ∈ [FileRecord.mk (md5_hexdigest (pathStr ["r", "x.html"])) "x.html" 1
        ["r", "x.html"] "01-01-2021" [104] none],
      r ∈ ([] : List FileRecord) ∨ qualifies r.name = true :=
  crawl_extension_filter_and_recursion.2.2 3 "01-01-2021" false false ["r"]
    [Entry.file "x.html" [104]] [] (IndexStats.mk 0 0)
    [FileRecord.mk (md5_hexdigest (pathStr ["r", "x.html"])) "x.html" 1
      ["r", "x.html"] "01-01-2021" [104] none] (IndexStats.mk 0 1) (by rfl)
